import Mathlib

/-!
Shallow embedding of the `http_accept` package (file `http_accept/__init__.py`):
the header splitting function `split_accept_header`, the `MediaRange` value
type and the `HeaderAccept` collection, together with theorems checking the
natural-language specification of the package against this embedding.

Modelling conventions:
* `decimal.Decimal` values are modelled by `ℚ`.  A `Decimal` built from a
  string is the exact rational value of the literal; a `Decimal` built from a
  float or another `Decimal` is the exact rational value of that number
  (conversion from a float is exact in Python, so the float literal `0.8`
  becomes the rational `3602879701896397 / 4503599627370496`, not `4/5`).
  `Decimal` comparison is exact numeric comparison, which is `ℚ` comparison.
* Python exceptions are modelled by the `Err` type and `Except Err`
  results: `TypeError`, `ValueError` and `decimal.InvalidOperation`.
* Python objects appearing as comparison or append arguments are modelled by
  capability records (`PyDuck`): each `hasattr` check in the source becomes a
  test that the corresponding optional field is present.
* Python dicts of media-range parameters are modelled by association lists
  with the dict operations (`dlookup`, `dictEq`); keyword-argument dicts have
  distinct keys.
-/

/-- Errors raised by the modelled code: `TypeError`, `ValueError` and
`decimal.InvalidOperation`. -/
inductive Err
  | typeError
  | valueError
  | invalidOperation
deriving DecidableEq

deriving instance DecidableEq for Except

/-- Value stored in an options dict: either a Python string, or a numeric
value (float or `Decimal`) represented by its exact rational value. -/
inductive OptVal
  | str (s : String)
  | num (q : ℚ)
deriving DecidableEq

/-- An options dict, as an association list (Python keyword arguments have
distinct keys). -/
abbrev OptDict := List (String × OptVal)

/-- Dict lookup: first binding of the key, if any. -/
def dlookup (k : String) : OptDict → Option OptVal
  | [] => none
  | kv :: rest => if kv.1 == k then some kv.2 else dlookup k rest

/-- Python dict equality: both dicts hold exactly the same key/value pairs. -/
def dictEq (a b : OptDict) : Bool :=
  a.all (fun kv => decide (dlookup kv.1 b = some kv.2)) &&
  b.all (fun kv => decide (dlookup kv.1 a = some kv.2))

/-- Numeric value of a digit character. -/
def digitVal (c : Char) : ℕ := c.toNat - 48

/-- Check that every character is a decimal digit. -/
def allDigits (cs : List Char) : Bool := cs.all Char.isDigit

/-- Value of a list of digit characters, most significant first. -/
def digitsVal (cs : List Char) : ℕ := cs.foldl (fun a c => 10 * a + digitVal c) 0

/-- Split a character list at the first dot, if any. -/
def splitDot : List Char → List Char × Option (List Char)
  | [] => ([], none)
  | c :: cs =>
    if c = '.' then ([], some cs)
    else
      let r := splitDot cs
      (c :: r.1, r.2)

/-- Model of `decimal.Decimal(s)` for a string argument, on the plain finite
decimal literals `[sign] digits [. digits]` that occur as `q` values.  The
result is the exact rational value of the literal.  Other forms accepted by
`Decimal` (exponents, `NaN`, `Infinity`, surrounding whitespace, underscores)
is outside the modelled fragment and mapped to the error case; no claim
depends on those inputs. -/
def parseDecimal (s : String) : Except Err ℚ :=
  let cs := s.data
  let signAndDigits : Bool × List Char :=
    match cs with
    | '-' :: rest => (true, rest)
    | '+' :: rest => (false, rest)
    | _ => (false, cs)
  let neg := signAndDigits.1
  let body := signAndDigits.2
  let parts := splitDot body
  let valid : Bool :=
    match parts.2 with
    | none => allDigits parts.1 && !parts.1.isEmpty
    | some f => allDigits parts.1 && allDigits f && !(parts.1.isEmpty && f.isEmpty)
  if valid then
    let mag : ℚ :=
      (digitsVal parts.1 : ℚ) +
        (match parts.2 with
         | none => 0
         | some f => (digitsVal f : ℚ) / 10 ^ f.length)
    .ok (if neg then -mag else mag)
  else
    .error .invalidOperation

/-- Model of `decimal.Decimal(x)` for the values that reach it: a string goes
through the literal parser, a numeric value (float or `Decimal`) converts
exactly. -/
def Dcast : OptVal → Except Err ℚ
  | .str s => parseDecimal s
  | .num q => .ok q

/-- Digit character for a value below ten. -/
def digitChar (n : ℕ) : Char := Char.ofNat (48 + n)

/-- Decimal digits of a natural number, with fuel for structural recursion. -/
def natReprAux : ℕ → ℕ → List Char
  | 0, _ => []
  | fuel + 1, n =>
    if n < 10 then [digitChar n]
    else natReprAux fuel (n / 10) ++ [digitChar (n % 10)]

/-- Decimal rendering of a natural number. -/
def natRepr (n : ℕ) : String := String.mk (natReprAux (n + 1) n)

/-- Model of the format `"%0.1f" % q` for the nonnegative decimal quality
values of the protocol: one digit after the decimal point, rounding to the
nearest tenth (every quality produced by the modelled code is an exact
multiple of a power of ten small enough that no rounding occurs). -/
def formatQ1 (q : ℚ) : String :=
  let n : ℤ := round (10 * q)
  natRepr (n / 10).toNat ++ "." ++ natRepr (n % 10).toNat

/-- `MediaRange` from `http_accept/__init__.py`: `mimetype`, the promoted
`quality` (`_quality`), the raw keyword options (`_raw_options`, including
`q`) and the exposed options (`_options`, with `q` removed). -/
structure MediaRange where
  mimetype : String
  quality : ℚ
  rawOptions : OptDict
  options : OptDict
deriving DecidableEq

/-- Model of `MediaRange.__init__(mimetype, **options)`: when a `q` option is
present its value goes through `Decimal` (which can raise
`decimal.InvalidOperation`), otherwise the quality defaults to the exact
value 1; `_options` drops the `q` key. -/
def MediaRange.build (mimetype : String) (options : OptDict) : Except Err MediaRange :=
  match dlookup "q" options with
  | some v =>
    match Dcast v with
    | .error e => .error e
    | .ok q =>
        .ok { mimetype := mimetype, quality := q, rawOptions := options,
              options := options.filter (fun kv => decide (kv.1 ≠ "q")) }
  | none =>
      .ok { mimetype := mimetype, quality := 1, rawOptions := options,
            options := options.filter (fun kv => decide (kv.1 ≠ "q")) }

/-- A Python object seen through the attribute checks of the source: each
field is present exactly when `hasattr` succeeds for the corresponding
attribute. -/
structure PyDuck where
  mimetypeAttr : Option String
  qualityAttr : Option ℚ
  optionsAttr : Option OptDict
deriving DecidableEq

/-- View of a `MediaRange` as an object: all three attributes are present. -/
def MediaRange.toDuck (m : MediaRange) : PyDuck :=
  { mimetypeAttr := some m.mimetype, qualityAttr := some m.quality,
    optionsAttr := some m.options }

/-- Model of `MediaRange.__eq__`: `False` when the other object lacks any of
the `mimetype`, `quality`, `options` attributes; otherwise compare all
three. -/
def MediaRange.eq (self : MediaRange) (other : PyDuck) : Bool :=
  match other.mimetypeAttr, other.qualityAttr, other.optionsAttr with
  | some mt, some q, some opts =>
      self.mimetype == mt && decide (self.quality = q) && dictEq self.options opts
  | _, _, _ => false

/-- Model of `MediaRange.__ne__`: `True` when the other object lacks any of
the three attributes; otherwise `True` when any of the three differs. -/
def MediaRange.ne (self : MediaRange) (other : PyDuck) : Bool :=
  match other.mimetypeAttr, other.qualityAttr, other.optionsAttr with
  | some mt, some q, some opts =>
      self.mimetype != mt || decide (self.quality ≠ q) || !dictEq self.options opts
  | _, _, _ => true

/-- Model of `MediaRange.__lt__`: raises `TypeError` when the other object
has no `quality` attribute, otherwise compares qualities only. -/
def MediaRange.lt (self : MediaRange) (other : PyDuck) : Except Err Bool :=
  match other.qualityAttr with
  | none => .error .typeError
  | some q => .ok (decide (self.quality < q))

/-- Model of `MediaRange.__le__`. -/
def MediaRange.le (self : MediaRange) (other : PyDuck) : Except Err Bool :=
  match other.qualityAttr with
  | none => .error .typeError
  | some q => .ok (decide (self.quality ≤ q))

/-- Model of `MediaRange.__gt__`. -/
def MediaRange.gt (self : MediaRange) (other : PyDuck) : Except Err Bool :=
  match other.qualityAttr with
  | none => .error .typeError
  | some q => .ok (decide (q < self.quality))

/-- Model of `MediaRange.__ge__`. -/
def MediaRange.ge (self : MediaRange) (other : PyDuck) : Except Err Bool :=
  match other.qualityAttr with
  | none => .error .typeError
  | some q => .ok (decide (q ≤ self.quality))

/-- Key order used by `sorted(self._options.items())`: item `a` may precede
item `b` when the key of `b` is not smaller (keyword dict keys are distinct,
so the key decides the order of the tuples). -/
def keyLe (a b : String × OptVal) : Prop := ¬ b.1 < a.1

instance : DecidableRel keyLe := fun a b => inferInstanceAs (Decidable (¬ b.1 < a.1))

instance : IsTotal (String × OptVal) keyLe :=
  ⟨fun a b => by
    rcases lt_trichotomy a.1 b.1 with h | h | h
    · exact Or.inl (not_lt_of_lt h)
    · exact Or.inl (by rw [keyLe, h]; exact lt_irrefl _)
    · exact Or.inr (not_lt_of_lt h)⟩

instance : IsTrans (String × OptVal) keyLe :=
  ⟨fun _ _ _ hab hbc => fun h => hab (lt_of_le_of_lt (le_of_not_lt hbc) h)⟩

/-- Model of `sorted(self._options.items())`: a stable sort of the option
items by key (Python `sorted` is stable). -/
def sortedOptions (d : OptDict) : OptDict := List.insertionSort keyLe d

/-- Helper for string-joining one option item, `"=".join([key, value])`:
joining raises `TypeError` when the value is not a string. -/
def optItemStr (kv : String × OptVal) : Except Err String :=
  match kv.2 with
  | .str s => .ok (kv.1 ++ "=" ++ s)
  | .num _ => .error .typeError

/-- String content of an option value, for stating the rendered form of an
option item whose value is a string. -/
def strOrEmpty : OptVal → String
  | .str s => s
  | .num _ => ""

/-- Model of `MediaRange.to_http(explicit_quality)`: the `q` parameter is
rendered first, only when `explicit_quality` is set or the raw options hold a
`q` key; the remaining options follow sorted by key; everything is joined
with semicolons after the mimetype. -/
def MediaRange.to_http (self : MediaRange) (explicit_quality : Bool) : Except Err String := do
  let base : List String :=
    if explicit_quality || (dlookup "q" self.rawOptions).isSome then
      ["q=" ++ formatQ1 self.quality]
    else []
  let options ← (sortedOptions self.options).mapM optItemStr
  .ok (String.intercalate ";" ([self.mimetype] ++ base ++ options))

/-- Model of `str.split(",")`: the empty string yields one empty token. -/
def splitCommas : List Char → List (List Char)
  | [] => [[]]
  | c :: cs =>
    if c = ',' then [] :: splitCommas cs
    else
      match splitCommas cs with
      | t :: ts => (c :: t) :: ts
      | [] => [[c]]

/-- Comma-joining of raw tokens, the shape of a well-formed header at the
character level; used to state the round-trip behavior of the splitter. -/
def joinCommas : List (List Char) → List Char
  | [] => []
  | [t] => t
  | t :: ts => t ++ ',' :: joinCommas ts

/-- Model of `split_accept_header`: the source evaluates
`accept_header.replace(" ", "").split(",")`, that is, it removes every space
character from the whole string and then splits on commas.  The lazy
generator of the source is modelled by the resulting list. -/
def split_accept_header (accept_header : String) : List String :=
  (splitCommas (accept_header.data.filter (fun c => c ≠ ' '))).map String.mk

/-- `HTML_MIMETYPES` from the source. -/
def HTML_MIMETYPES : List String :=
  ["text/html", "application/xhtml", "application/xhtml+xml"]

/-- `HeaderAccept` from the source: the list of members together with the
derived `max_quality` field. -/
structure HeaderAccept where
  items : List MediaRange
  max_quality : ℚ
deriving DecidableEq

/-- Model of `HeaderAccept.__init__`: `max_quality` is the maximum quality of
the members; `max()` over an empty generator raises `ValueError`. -/
def HeaderAccept.build (items : List MediaRange) : Except Err HeaderAccept :=
  match items with
  | [] => .error .valueError
  | i :: rest =>
      .ok { items := i :: rest,
            max_quality := rest.foldl (fun a item => max a item.quality) i.quality }

/-- Elements of a tuple or list probed for membership: strings, or numeric
values (int, float or `Decimal`) by their exact rational value. -/
inductive PyVal
  | str (s : String)
  | num (q : ℚ)
deriving DecidableEq

/-- Python `==` between a tuple element and a mimetype string: only a string
can equal a string. -/
def pyValEqStr : PyVal → String → Bool
  | .str s, t => s == t
  | .num _, _ => false

/-- `Decimal(quality)` for the second element of a probed pair. -/
def Dval : PyVal → Except Err ℚ
  | .str s => parseDecimal s
  | .num q => .ok q

/-- Argument shapes of `HeaderAccept.__contains__`: a `MediaRange` (all three
attributes present), a tuple or list of values, a string, or a plain object
that has none of the attributes and is not iterable. -/
inductive ContainsArg
  | media (m : MediaRange)
  | tup (xs : List PyVal)
  | str (s : String)
  | plain
deriving DecidableEq

/-- First branch of `__contains__`: the probe has `mimetype`, `quality` and
`options`, so it is compared with `value == item` against every member. -/
def HeaderAccept.containsMedia (self : HeaderAccept) (m : MediaRange) : Bool :=
  self.items.any fun item => m.eq item.toDuck

/-- Second branch of `__contains__`: the probe unpacked into a
`(mimetype, quality)` pair; `Decimal(quality)` may raise, the comparison then
matches mimetype equality and exact quality equality. -/
def HeaderAccept.containsPair (self : HeaderAccept) (mt q : PyVal) : Except Err Bool := do
  let d_quality ← Dval q
  .ok (self.items.any fun item =>
    pyValEqStr mt item.mimetype && decide (d_quality = item.quality))

/-- String probes: a two-character string unpacks into its two characters and
takes the pair branch; any other string fails unpacking with `ValueError`,
which is caught, and falls through to the bare mimetype comparison. -/
def HeaderAccept.containsStr (self : HeaderAccept) (s : String) : Except Err Bool :=
  match s.data with
  | [c1, c2] => self.containsPair (.str (String.mk [c1])) (.str (String.mk [c2]))
  | _ => .ok (self.items.any fun item => s == item.mimetype)

/-- Model of `HeaderAccept.__contains__`.  A tuple of length other than two
fails unpacking with `ValueError`, which is caught, and falls through to the
bare comparison `value == item.mimetype`, always `False` for a tuple.  A
plain non-iterable object fails unpacking with `TypeError`, which the source
does not catch, so the error propagates. -/
def HeaderAccept.contains (self : HeaderAccept) : ContainsArg → Except Err Bool
  | .media m => .ok (self.containsMedia m)
  | .tup xs =>
    match xs with
    | [mt, q] => self.containsPair mt q
    | _ => .ok (self.items.any fun _ => false)
  | .str s => self.containsStr s
  | .plain => .error .typeError

/-- Argument of `HeaderAccept.append`: either a `MediaRange`, or some other
object seen through its attributes. -/
inductive AppendArg
  | media (m : MediaRange)
  | duck (d : PyDuck)

/-- Model of `HeaderAccept.append`: raises `TypeError` before any mutation
when the argument lacks a `quality` or a `mimetype` attribute (the returned
state is then the unchanged receiver); otherwise bumps `max_quality` when the
new quality is larger and appends at the end.  A non-`MediaRange` object that
passes the check is stored as the member carrying its attribute values. -/
def HeaderAccept.append (self : HeaderAccept) (x : AppendArg) : HeaderAccept × Option Err :=
  match x with
  | .media m =>
      ({ items := self.items ++ [m],
         max_quality := if self.max_quality < m.quality then m.quality else self.max_quality },
       none)
  | .duck d =>
      match d.qualityAttr, d.mimetypeAttr with
      | some q, some mt =>
          ({ items := self.items ++
               [{ mimetype := mt, quality := q,
                  rawOptions := d.optionsAttr.getD [], options := d.optionsAttr.getD [] }],
             max_quality := if self.max_quality < q then q else self.max_quality },
           none)
      | _, _ => (self, some .typeError)

/-- Quality order used by `sorted(self, reverse=True)`: member `a` may
precede member `b` when the quality of `b` is not above the quality of `a`. -/
def qge (a b : MediaRange) : Prop := b.quality ≤ a.quality

instance : DecidableRel qge := fun a b => inferInstanceAs (Decidable (b.quality ≤ a.quality))

instance : IsTotal MediaRange qge := ⟨fun a b => le_total b.quality a.quality⟩

instance : IsTrans MediaRange qge := ⟨fun _ _ _ hab hbc => le_trans hbc hab⟩

/-- Model of `sorted(self, reverse=True)`: Python `sorted` is a stable sort
and with `reverse=True` it keeps the original order of members comparing
equal; element comparison goes through `MediaRange.__lt__`, which compares
qualities only.  Modelled by a stable insertion sort along `qge`. -/
def sortDesc (l : List MediaRange) : List MediaRange := List.insertionSort qge l

/-- Model of `HeaderAccept.to_http`: members are serialized in descending
quality order and joined with commas. -/
def HeaderAccept.to_http (self : HeaderAccept) : Except Err String := do
  let parts ← (sortDesc self.items).mapM (fun value => value.to_http false)
  .ok (String.intercalate "," parts)

/-- Model of `HeaderAccept.get_max_quality_accept`: a new collection built
from the members whose quality equals `max_quality`. -/
def HeaderAccept.get_max_quality_accept (self : HeaderAccept) : Except Err HeaderAccept :=
  HeaderAccept.build
    (self.items.filter fun item => decide (item.quality = self.max_quality))

/-- Mimetypes compared by `is_html_accepted`: the HTML mimetypes, extended
with the wildcard mimetypes when `strict` is false. -/
def mimetypes_compare (strict : Bool) : List String :=
  if strict then HTML_MIMETYPES
  else HTML_MIMETYPES ++ ["text/*", "application/*", "*/*"]

/-- Short-circuiting `any()` over a generator of fallible membership tests. -/
def anyE {α : Type} : List α → (α → Except Err Bool) → Except Err Bool
  | [], _ => .ok false
  | a :: rest, p => do
      let b ← p a
      if b then .ok true else anyE rest p

/-- Model of `HeaderAccept.is_html_accepted(strict)`: builds a synthetic
`MediaRange(mimetype, q=self.max_quality)` for each compared mimetype (the
`q` keyword is the stored `Decimal`, a numeric value) and tests membership,
which takes the full-capability branch of `__contains__`. -/
def HeaderAccept.is_html_accepted (self : HeaderAccept) (strict : Bool) : Except Err Bool :=
  anyE (mimetypes_compare strict) fun mimetype => do
    let accept_value ← MediaRange.build mimetype [("q", OptVal.num self.max_quality)]
    self.contains (.media accept_value)

/-! Reduction lemmas for the Except monad. -/

theorem errBind {α β : Type} (e : Err) (f : α → Except Err β) :
    (Except.error e >>= f) = Except.error e := rfl

theorem okBind {α β : Type} (a : α) (f : α → Except Err β) :
    (Except.ok a >>= f) = f a := rfl

/-! Helper lemmas about dict lookup and dict equality. -/

theorem dlookup_eq_some_mem {k : String} {v : OptVal} :
    ∀ {l : OptDict}, dlookup k l = some v → (k, v) ∈ l := by
  intro l
  induction l with
  | nil => intro h; simp [dlookup] at h
  | cons kv rest ih =>
    obtain ⟨k1, v1⟩ := kv
    intro h
    by_cases hk : k1 = k
    · subst hk
      simp only [dlookup, beq_self_eq_true, if_true, Option.some.injEq] at h
      subst h
      exact List.mem_cons_self _ _
    · have hbeq : (k1 == k) = false := beq_eq_false_iff_ne.2 hk
      simp only [dlookup, hbeq, Bool.false_eq_true, if_false] at h
      exact List.mem_cons_of_mem _ (ih h)

theorem mem_dlookup {k : String} {v : OptVal} {l : OptDict}
    (hnd : (l.map Prod.fst).Nodup) (hm : (k, v) ∈ l) : dlookup k l = some v := by
  induction l with
  | nil => simp at hm
  | cons kv rest ih =>
    rcases List.mem_cons.1 hm with h | h
    · subst h
      simp [dlookup]
    · have hk : kv.1 ≠ k := by
        intro hkk
        have hmem : k ∈ rest.map Prod.fst := List.mem_map.2 ⟨(k, v), h, rfl⟩
        simp only [List.map_cons, List.nodup_cons] at hnd
        exact hnd.1 (hkk ▸ hmem)
      have hbeq : (kv.1 == k) = false := beq_eq_false_iff_ne.2 hk
      simp only [dlookup, hbeq, Bool.false_eq_true, if_false]
      exact ih (by simp only [List.map_cons, List.nodup_cons] at hnd; exact hnd.2) h

theorem dlookup_eq_none {k : String} {l : OptDict} :
    dlookup k l = none ↔ k ∉ l.map Prod.fst := by
  induction l with
  | nil => simp [dlookup]
  | cons kv rest ih =>
    by_cases hk : kv.1 = k
    · simp [dlookup, hk]
    · have hbeq : (kv.1 == k) = false := beq_eq_false_iff_ne.2 hk
      simp [dlookup, hbeq, ih, Ne.symm hk]

theorem dictEq_iff {a b : OptDict}
    (ha : (a.map Prod.fst).Nodup) (hb : (b.map Prod.fst).Nodup) :
    dictEq a b = true ↔ ∀ k, dlookup k a = dlookup k b := by
  constructor
  · intro h k
    simp only [dictEq, Bool.and_eq_true, List.all_eq_true, decide_eq_true_eq] at h
    cases hval : dlookup k a with
    | some v =>
      have h2 : dlookup k b = some v := h.1 (k, v) (dlookup_eq_some_mem hval)
      rw [h2]
    | none =>
      cases hvb : dlookup k b with
      | none => rfl
      | some w =>
        have h2 : dlookup k a = some w := h.2 (k, w) (dlookup_eq_some_mem hvb)
        rw [hval] at h2
        exact absurd h2 (by simp)
  · intro h
    simp only [dictEq, Bool.and_eq_true, List.all_eq_true, decide_eq_true_eq]
    constructor
    · intro kv hkv
      rw [← h kv.1]
      exact mem_dlookup ha hkv
    · intro kv hkv
      rw [h kv.1]
      exact mem_dlookup hb hkv

theorem dictEq_nil_iff {d : OptDict} : dictEq [] d = true ↔ d = [] := by
  cases d with
  | nil => simp [dictEq]
  | cons kv rest => simp [dictEq, dlookup]

/-! Helper lemmas about the fold computing the maximal quality. -/

theorem foldl_max_le_init (rest : List MediaRange) (a : ℚ) :
    a ≤ rest.foldl (fun x it => max x it.quality) a := by
  induction rest generalizing a with
  | nil => simp
  | cons it rest ih =>
    simp only [List.foldl_cons]
    exact le_trans (le_max_left _ _) (ih (max a it.quality))

theorem foldl_max_mem (rest : List MediaRange) (a : ℚ) :
    rest.foldl (fun x it => max x it.quality) a = a ∨
      ∃ m ∈ rest, rest.foldl (fun x it => max x it.quality) a = m.quality := by
  induction rest generalizing a with
  | nil => left; rfl
  | cons it rest ih =>
    simp only [List.foldl_cons]
    rcases ih (max a it.quality) with h | ⟨m, hm, h⟩
    · rcases max_choice a it.quality with hmax | hmax
      · left; rw [h, hmax]
      · right; exact ⟨it, List.mem_cons_self _ _, by rw [h, hmax]⟩
    · right; exact ⟨m, List.mem_cons_of_mem _ hm, h⟩

theorem le_foldl_max (rest : List MediaRange) (a : ℚ) :
    ∀ m ∈ rest, m.quality ≤ rest.foldl (fun x it => max x it.quality) a := by
  induction rest generalizing a with
  | nil => simp
  | cons it rest ih =>
    intro m hm
    simp only [List.foldl_cons]
    rcases List.mem_cons.1 hm with h | h
    · subst h
      exact le_trans (le_max_right _ _) (foldl_max_le_init _ _)
    · exact ih (max a it.quality) m h

theorem foldl_max_const (rest : List MediaRange) (c : ℚ)
    (h : ∀ m ∈ rest, m.quality = c) :
    rest.foldl (fun x it => max x it.quality) c = c := by
  induction rest with
  | nil => rfl
  | cons it rest ih =>
    simp only [List.foldl_cons, h it (List.mem_cons_self _ _), max_self]
    exact ih fun m hm => h m (List.mem_cons_of_mem _ hm)

/-! Inversion lemmas for the constructors. -/

theorem headerAccept_build_ok {items : List MediaRange} {h : HeaderAccept}
    (hb : HeaderAccept.build items = .ok h) :
    h.items = items ∧ items ≠ [] ∧
      (∃ m ∈ items, m.quality = h.max_quality) ∧
      ∀ m ∈ items, m.quality ≤ h.max_quality := by
  cases items with
  | nil => simp [HeaderAccept.build] at hb
  | cons i rest =>
    simp only [HeaderAccept.build, Except.ok.injEq] at hb
    subst hb
    refine ⟨rfl, by simp, ?_, ?_⟩
    · rcases foldl_max_mem rest i.quality with hm | ⟨m, hmem, hm⟩
      · exact ⟨i, List.mem_cons_self _ _, hm.symm⟩
      · exact ⟨m, List.mem_cons_of_mem _ hmem, hm.symm⟩
    · intro m hm
      rcases List.mem_cons.1 hm with hcase | hcase
      · subst hcase; exact foldl_max_le_init _ _
      · exact le_foldl_max _ _ m hcase

theorem mediaRange_build_ok {mt : String} {opts : OptDict} {m : MediaRange}
    (hb : MediaRange.build mt opts = .ok m) :
    m.mimetype = mt ∧ m.rawOptions = opts ∧
      m.options = opts.filter (fun kv => decide (kv.1 ≠ "q")) := by
  cases hq : dlookup "q" opts with
  | none =>
    simp only [MediaRange.build, hq, Except.ok.injEq] at hb
    subst hb
    exact ⟨rfl, rfl, rfl⟩
  | some v =>
    cases hc : Dcast v with
    | error e =>
      simp [MediaRange.build, hq, hc] at hb
    | ok q =>
      simp only [MediaRange.build, hq, hc, Except.ok.injEq] at hb
      subst hb
      exact ⟨rfl, rfl, rfl⟩

theorem MediaRange.build_q_num (mt : String) (q : ℚ) :
    MediaRange.build mt [("q", OptVal.num q)] =
      .ok { mimetype := mt, quality := q,
            rawOptions := [("q", OptVal.num q)], options := [] } := by
  rfl

/-! Helper lemmas about the monadic iteration combinators. -/

theorem anyE_ok {α : Type} {l : List α} {p : α → Except Err Bool} {f : α → Bool}
    (hp : ∀ x ∈ l, p x = .ok (f x)) : anyE l p = .ok (l.any f) := by
  induction l with
  | nil => rfl
  | cons a rest ih =>
    have ha : p a = .ok (f a) := hp a (List.mem_cons_self _ _)
    rw [anyE, ha, okBind]
    cases hfa : f a with
    | true => simp [hfa]
    | false =>
      simp only [Bool.false_eq_true, if_false, List.any_cons, hfa, Bool.false_or]
      exact ih fun x hx => hp x (List.mem_cons_of_mem _ hx)

theorem mapM_eq_map {α β : Type} {l : List α} {f : α → Except Err β} {g : α → β}
    (h : ∀ x ∈ l, f x = .ok (g x)) : l.mapM f = .ok (l.map g) := by
  induction l with
  | nil => rfl
  | cons a rest ih =>
    rw [List.mapM_cons, h a (List.mem_cons_self _ _), okBind,
      ih fun x hx => h x (List.mem_cons_of_mem _ hx), okBind]
    rfl

theorem mapM_ok_of_forall {α β : Type} {l : List α} {f : α → Except Err β}
    (h : ∀ x ∈ l, ∃ y, f x = .ok y) : ∃ ys, l.mapM f = .ok ys := by
  induction l with
  | nil => exact ⟨[], rfl⟩
  | cons a rest ih =>
    obtain ⟨y, hy⟩ := h a (List.mem_cons_self _ _)
    obtain ⟨ys, hys⟩ := ih fun x hx => h x (List.mem_cons_of_mem _ hx)
    exact ⟨y :: ys, by rw [List.mapM_cons, hy, okBind, hys, okBind]; rfl⟩

/-! Stability of the descending insertion sort: the members carrying any
fixed quality keep their original relative order. -/

theorem filter_orderedInsert (q : ℚ) (x : MediaRange) (l : List MediaRange) :
    (List.orderedInsert qge x l).filter (fun m => decide (m.quality = q)) =
      if x.quality = q then x :: l.filter (fun m => decide (m.quality = q))
      else l.filter (fun m => decide (m.quality = q)) := by
  induction l with
  | nil =>
    by_cases hx : x.quality = q <;> simp [List.orderedInsert, List.filter, hx]
  | cons y ys ih =>
    by_cases hr : qge x y
    · rw [List.orderedInsert_of_le _ _ hr]
      by_cases hx : x.quality = q <;> simp [List.filter, hx]
    · have hyq : x.quality < y.quality := lt_of_not_le hr
      have : List.orderedInsert qge x (y :: ys) = y :: List.orderedInsert qge x ys := by
        simp [List.orderedInsert, hr]
      rw [this]
      by_cases hx : x.quality = q
      · have hy : ¬ y.quality = q := by
          intro hyq2
          exact absurd (hx ▸ hyq2 ▸ hyq) (lt_irrefl _)
        simp [List.filter, hy, hx, ih]
      · by_cases hy : y.quality = q <;> simp [List.filter, hy, hx, ih]

theorem sortDesc_filter (q : ℚ) (l : List MediaRange) :
    (sortDesc l).filter (fun m => decide (m.quality = q)) =
      l.filter (fun m => decide (m.quality = q)) := by
  induction l with
  | nil => rfl
  | cons a l ih =>
    show (List.orderedInsert qge a (sortDesc l)).filter _ = _
    rw [filter_orderedInsert]
    by_cases ha : a.quality = q <;> simp [List.filter, ha, ih]

theorem sortDesc_perm (l : List MediaRange) : List.Perm (sortDesc l) l :=
  List.perm_insertionSort qge l

theorem sortDesc_sorted (l : List MediaRange) : List.Sorted qge (sortDesc l) :=
  List.sorted_insertionSort qge l

/-! Serialization helpers. -/

theorem optItemStr_ok {kv : String × OptVal} (h : ∃ s, kv.2 = OptVal.str s) :
    optItemStr kv = .ok (kv.1 ++ "=" ++ strOrEmpty kv.2) := by
  obtain ⟨s, hs⟩ := h
  obtain ⟨k1, v1⟩ := kv
  simp only at hs
  subst hs
  rfl

theorem MediaRange.to_http_ok {m : MediaRange}
    (h : ∀ kv ∈ m.options, ∃ s, kv.2 = OptVal.str s) (e : Bool) :
    m.to_http e = .ok (String.intercalate ";" ([m.mimetype] ++
      (if e || (dlookup "q" m.rawOptions).isSome then ["q=" ++ formatQ1 m.quality] else []) ++
      (sortedOptions m.options).map (fun kv => kv.1 ++ "=" ++ strOrEmpty kv.2))) := by
  have hmem : ∀ kv ∈ sortedOptions m.options, kv ∈ m.options := fun kv hkv =>
    (List.perm_insertionSort keyLe m.options).mem_iff.1 hkv
  have hmap : (sortedOptions m.options).mapM optItemStr =
      .ok ((sortedOptions m.options).map (fun kv => kv.1 ++ "=" ++ strOrEmpty kv.2)) :=
    mapM_eq_map fun kv hkv => optItemStr_ok (h kv (hmem kv hkv))
  rw [MediaRange.to_http]
  rw [show ∀ (x : Except Err (List String)) (f : List String → Except Err String),
        (do let options ← x; f options) = x >>= f from fun _ _ => rfl] at *
  rw [hmap, okBind]

/-! Helper lemmas about the comma splitter. -/

theorem splitCommas_no_comma {t : List Char} (h : ',' ∉ t) : splitCommas t = [t] := by
  induction t with
  | nil => rfl
  | cons c cs ih =>
    have hc : c ≠ ',' := fun hcc => h (hcc ▸ List.mem_cons_self _ _)
    have hcs : ',' ∉ cs := fun hmem => h (List.mem_cons_of_mem _ hmem)
    simp [splitCommas, hc, ih hcs]

theorem splitCommas_sep {t rest : List Char} (h : ',' ∉ t) :
    splitCommas (t ++ ',' :: rest) = t :: splitCommas rest := by
  induction t with
  | nil => simp [splitCommas]
  | cons c cs ih =>
    have hc : c ≠ ',' := fun hcc => h (hcc ▸ List.mem_cons_self _ _)
    have hcs : ',' ∉ cs := fun hmem => h (List.mem_cons_of_mem _ hmem)
    simp [splitCommas, hc, ih hcs]

theorem splitCommas_joinCommas :
    ∀ {ts : List (List Char)}, ts ≠ [] → (∀ t ∈ ts, ',' ∉ t) →
      splitCommas (joinCommas ts) = ts := by
  intro ts
  induction ts with
  | nil => intro h; exact absurd rfl h
  | cons t ts ih =>
    intro _ hno
    cases ts with
    | nil => exact splitCommas_no_comma (hno t (List.mem_cons_self _ _))
    | cons t2 ts2 =>
      have : joinCommas (t :: t2 :: ts2) = t ++ ',' :: joinCommas (t2 :: ts2) := rfl
      rw [this, splitCommas_sep (hno t (List.mem_cons_self _ _))]
      rw [ih (by simp) fun u hu => hno u (List.mem_cons_of_mem _ hu)]

theorem mem_joinCommas {a : Char} :
    ∀ {ts : List (List Char)}, a ∈ joinCommas ts → a = ',' ∨ ∃ t ∈ ts, a ∈ t := by
  intro ts
  induction ts with
  | nil => intro h; simp [joinCommas] at h
  | cons t ts ih =>
    intro h
    cases ts with
    | nil =>
      right
      exact ⟨t, List.mem_cons_self _ _, h⟩
    | cons t2 ts2 =>
      have : joinCommas (t :: t2 :: ts2) = t ++ ',' :: joinCommas (t2 :: ts2) := rfl
      rw [this] at h
      rcases List.mem_append.1 h with h | h
      · right; exact ⟨t, List.mem_cons_self _ _, h⟩
      · rcases List.mem_cons.1 h with h | h
        · left; exact h
        · rcases ih h with h | ⟨u, hu, ha⟩
          · left; exact h
          · right; exact ⟨u, List.mem_cons_of_mem _ hu, ha⟩

/-! Unfolding lemmas for the membership branches. -/

theorem contains_pair_eq (h : HeaderAccept) (mt q : PyVal) {dq : ℚ}
    (hq : Dval q = .ok dq) :
    h.contains (.tup [mt, q]) = .ok (h.items.any fun item =>
      pyValEqStr mt item.mimetype && decide (dq = item.quality)) := by
  show h.containsPair mt q = _
  rw [HeaderAccept.containsPair, hq, okBind]

theorem contains_str_bare (h : HeaderAccept) (s : String) (hlen : s.data.length ≠ 2) :
    h.contains (.str s) = .ok (h.items.any fun item => s == item.mimetype) := by
  show h.containsStr s = _
  rw [HeaderAccept.containsStr]
  rcases hs : s.data with _ | ⟨c1, _ | ⟨c2, _ | ⟨c3, cs⟩⟩⟩
  · rfl
  · rfl
  · exact absurd (by rw [hs]; rfl) hlen
  · rfl

theorem contains_tup_bare (h : HeaderAccept) (xs : List PyVal) (hlen : xs.length ≠ 2) :
    h.contains (.tup xs) = .ok false := by
  rcases xs with _ | ⟨a, _ | ⟨b, _ | ⟨c, rest⟩⟩⟩
  · show Except.ok (h.items.any fun _ => false) = .ok false
    simp
  · show Except.ok (h.items.any fun _ => false) = .ok false
    simp
  · exact absurd rfl hlen
  · show Except.ok (h.items.any fun _ => false) = .ok false
    simp

theorem is_html_accepted_eq (h : HeaderAccept) (strict : Bool) :
    h.is_html_accepted strict = .ok ((mimetypes_compare strict).any fun mt =>
      h.items.any fun item =>
        mt == item.mimetype && decide (h.max_quality = item.quality) &&
          dictEq [] item.options) := by
  rw [HeaderAccept.is_html_accepted]
  refine anyE_ok fun mt _ => ?_
  rw [MediaRange.build_q_num, okBind]
  rfl

/-! Claim theorems. -/

/-- C7: the ordering comparisons of `MediaRange` against a value exposing a
`quality` attribute are decided by comparing quality only, so two ranges with
equal quality (whatever their mimetypes and options) are neither less nor
greater than each other; against a value without a `quality` attribute each
comparison raises a `TypeError` instead of returning a default result. -/
theorem C7_ordering_by_quality :
    (∀ (m : MediaRange) (d : PyDuck) (q : ℚ), d.qualityAttr = some q →
      m.lt d = .ok (decide (m.quality < q)) ∧ m.le d = .ok (decide (m.quality ≤ q)) ∧
      m.gt d = .ok (decide (q < m.quality)) ∧ m.ge d = .ok (decide (q ≤ m.quality))) ∧
    (∀ (m : MediaRange) (d : PyDuck), d.qualityAttr = none →
      m.lt d = .error .typeError ∧ m.le d = .error .typeError ∧
      m.gt d = .error .typeError ∧ m.ge d = .error .typeError) ∧
    (∀ m1 m2 : MediaRange, m1.quality = m2.quality →
      m1.lt m2.toDuck = .ok false ∧ m1.gt m2.toDuck = .ok false ∧
      m1.le m2.toDuck = .ok true ∧ m1.ge m2.toDuck = .ok true) := by
  refine ⟨?_, ?_, ?_⟩
  · intro m d q hq
    simp [MediaRange.lt, MediaRange.le, MediaRange.gt, MediaRange.ge, hq]
  · intro m d hq
    simp [MediaRange.lt, MediaRange.le, MediaRange.gt, MediaRange.ge, hq]
  · intro m1 m2 hq
    simp [MediaRange.lt, MediaRange.le, MediaRange.gt, MediaRange.ge,
      MediaRange.toDuck, hq, lt_irrefl, le_refl]

/-- Witness for C7: two concrete media ranges of equal quality and different
mimetypes are order-equivalent, and comparison against an attribute-free
object raises. -/
theorem C7_ordering_by_quality_witness :
    (MediaRange.lt { mimetype := "text/html", quality := 1, rawOptions := [], options := [] }
        (MediaRange.toDuck { mimetype := "application/xml", quality := 1, rawOptions := [], options := [] }) = .ok false ∧
      MediaRange.gt { mimetype := "text/html", quality := 1, rawOptions := [], options := [] }
        (MediaRange.toDuck { mimetype := "application/xml", quality := 1, rawOptions := [], options := [] }) = .ok false ∧
      MediaRange.le { mimetype := "text/html", quality := 1, rawOptions := [], options := [] }
        (MediaRange.toDuck { mimetype := "application/xml", quality := 1, rawOptions := [], options := [] }) = .ok true ∧
      MediaRange.ge { mimetype := "text/html", quality := 1, rawOptions := [], options := [] }
        (MediaRange.toDuck { mimetype := "application/xml", quality := 1, rawOptions := [], options := [] }) = .ok true) ∧
    MediaRange.lt { mimetype := "text/html", quality := 1, rawOptions := [], options := [] }
      { mimetypeAttr := none, qualityAttr := none, optionsAttr := none } = .error .typeError :=
  ⟨C7_ordering_by_quality.2.2
      { mimetype := "text/html", quality := 1, rawOptions := [], options := [] }
      { mimetype := "application/xml", quality := 1, rawOptions := [], options := [] } rfl,
    (C7_ordering_by_quality.2.1
      { mimetype := "text/html", quality := 1, rawOptions := [], options := [] }
      { mimetypeAttr := none, qualityAttr := none, optionsAttr := none } rfl).1⟩

/-- C6: `append` raises a `TypeError` when the argument lacks a `mimetype` or
`quality` attribute and in that case leaves the collection unchanged (same
length, same `max_quality`); on success the argument becomes the last
element, prior order is preserved, and `max_quality` becomes the maximum of
the old value and the appended quality. -/
theorem C6_append_contract :
    (∀ (h : HeaderAccept) (d : PyDuck), d.mimetypeAttr = none ∨ d.qualityAttr = none →
      h.append (.duck d) = (h, some Err.typeError)) ∧
    (∀ (h : HeaderAccept) (m : MediaRange),
      h.append (.media m) =
        ({ items := h.items ++ [m], max_quality := max h.max_quality m.quality }, none)) ∧
    (∀ (h : HeaderAccept) (d : PyDuck) (mt : String) (q : ℚ),
      d.mimetypeAttr = some mt → d.qualityAttr = some q →
      (h.append (.duck d)).2 = none ∧
      (h.append (.duck d)).1.max_quality = max h.max_quality q ∧
      (h.append (.duck d)).1.items.length = h.items.length + 1) := by
  have hmax : ∀ a b : ℚ, (if a < b then b else a) = max a b := by
    intro a b
    by_cases hlt : a < b
    · rw [if_pos hlt, max_eq_right hlt.le]
    · rw [if_neg hlt, max_eq_left (not_lt.1 hlt)]
  refine ⟨?_, ?_, ?_⟩
  · intro h d hcase
    obtain ⟨dm, dq, dopt⟩ := d
    rcases dm with _ | dm <;> rcases dq with _ | dq <;>
      simp_all [HeaderAccept.append]
  · intro h m
    simp [HeaderAccept.append, hmax]
  · intro h d mt q hm hq
    obtain ⟨dm, dq, dopt⟩ := d
    simp only at hm hq
    subst hm
    subst hq
    simp [HeaderAccept.append, hmax]

/-- Witness for C6: appending an attribute-free object to a concrete
collection raises and returns the collection unchanged, and appending a
concrete `MediaRange` appends it at the end and bumps `max_quality`. -/
theorem C6_append_contract_witness :
    HeaderAccept.append { items := [], max_quality := 1 }
        (.duck { mimetypeAttr := none, qualityAttr := none, optionsAttr := none }) =
      ({ items := [], max_quality := 1 }, some Err.typeError) ∧
    HeaderAccept.append { items := [], max_quality := 1 }
        (.media { mimetype := "text/html", quality := 1, rawOptions := [], options := [] }) =
      ({ items := [{ mimetype := "text/html", quality := 1, rawOptions := [], options := [] }],
         max_quality := max 1 1 }, none) :=
  ⟨C6_append_contract.1 { items := [], max_quality := 1 }
      { mimetypeAttr := none, qualityAttr := none, optionsAttr := none } (Or.inl rfl),
    C6_append_contract.2.1 { items := [], max_quality := 1 }
      { mimetype := "text/html", quality := 1, rawOptions := [], options := [] }⟩

/-- C4: equality of two `MediaRange` values holds exactly when mimetype,
quality and the options dict all match (dict match meaning pointwise lookup
agreement), `__ne__` is the boolean negation of `__eq__` on such values, and
comparison against a value lacking any of the three attributes returns false
for `==` and true for `!=` without raising (both methods are total). -/
theorem C4_equality_contract :
    (∀ a b : MediaRange,
      (a.options.map Prod.fst).Nodup → (b.options.map Prod.fst).Nodup →
      (a.eq b.toDuck = true ↔
        a.mimetype = b.mimetype ∧ a.quality = b.quality ∧
          ∀ k, dlookup k a.options = dlookup k b.options)) ∧
    (∀ a b : MediaRange, a.ne b.toDuck = !a.eq b.toDuck) ∧
    (∀ (a : MediaRange) (d : PyDuck),
      d.mimetypeAttr = none ∨ d.qualityAttr = none ∨ d.optionsAttr = none →
      a.eq d = false ∧ a.ne d = true) := by
  refine ⟨?_, ?_, ?_⟩
  · intro a b ha hb
    show (a.mimetype == b.mimetype && decide (a.quality = b.quality) &&
        dictEq a.options b.options) = true ↔ _
    rw [Bool.and_eq_true, Bool.and_eq_true, beq_iff_eq, decide_eq_true_eq,
      dictEq_iff ha hb]
    tauto
  · intro a b
    show (a.mimetype != b.mimetype || decide (a.quality ≠ b.quality) ||
        !dictEq a.options b.options) =
      !(a.mimetype == b.mimetype && decide (a.quality = b.quality) &&
        dictEq a.options b.options)
    cases hm : a.mimetype == b.mimetype <;>
      cases hq : decide (a.quality = b.quality) <;>
        cases ho : dictEq a.options b.options <;>
          simp [bne, hm, hq, ho, ne_eq, decide_not]
  · intro a d hcase
    obtain ⟨dm, dq, dopt⟩ := d
    rcases dm with _ | dm <;> rcases dq with _ | dq <;> rcases dopt with _ | dopt <;>
      simp_all [MediaRange.eq, MediaRange.ne]

/-- Witness for C4: two concrete equal media ranges satisfy the equality
characterization, and comparing against an attribute-free object yields
false for equality and true for inequality. -/
theorem C4_equality_contract_witness :
    (MediaRange.eq { mimetype := "text/html", quality := 1, rawOptions := [], options := [] }
        (MediaRange.toDuck { mimetype := "text/html", quality := 1, rawOptions := [], options := [] }) = true ↔
      ("text/html" : String) = "text/html" ∧ (1 : ℚ) = 1 ∧
        ∀ k, dlookup k [] = dlookup k []) ∧
    MediaRange.eq { mimetype := "text/html", quality := 1, rawOptions := [], options := [] }
      { mimetypeAttr := none, qualityAttr := none, optionsAttr := none } = false ∧
    MediaRange.ne { mimetype := "text/html", quality := 1, rawOptions := [], options := [] }
      { mimetypeAttr := none, qualityAttr := none, optionsAttr := none } = true :=
  ⟨C4_equality_contract.1
      { mimetype := "text/html", quality := 1, rawOptions := [], options := [] }
      { mimetype := "text/html", quality := 1, rawOptions := [], options := [] }
      (by simp) (by simp),
    C4_equality_contract.2.2
      { mimetype := "text/html", quality := 1, rawOptions := [], options := [] }
      { mimetypeAttr := none, qualityAttr := none, optionsAttr := none } (Or.inl rfl)⟩

/-- C1 counterexample: the claim asserts that for
`accepts = HeaderAccept([MediaRange("text/html", q="0.8")])` the Python
float `0.8` used as the quality of a probed pair makes the pair a member.
The float literal `0.8` denotes the IEEE-754 double of exact rational value
`3602879701896397 / 4503599627370496`; `Decimal` of that float is that exact
rational, which differs from the stored `Decimal("0.8") = 4/5`, so the
membership test returns false for the float-quality pair while it returns
true for the string `"0.8"`. -/
theorem C1_float_quality_counterexample :
    (do
      let m ← MediaRange.build "text/html" [("q", OptVal.str "0.8")]
      let a ← HeaderAccept.build [m]
      a.contains (.tup [.str "text/html",
        .num (3602879701896397 / 4503599627370496)])) = Except.ok false ∧
    (3602879701896397 / 4503599627370496 : ℚ) ≠ 4 / 5 ∧
    parseDecimal "0.8" = .ok (4 / 5) ∧
    (do
      let m ← MediaRange.build "text/html" [("q", OptVal.str "0.8")]
      let a ← HeaderAccept.build [m]
      a.contains (.tup [.str "text/html", .str "0.8"])) = Except.ok true := by
  refine ⟨by with_unfolding_all decide, by with_unfolding_all decide,
    by with_unfolding_all decide, by with_unfolding_all decide⟩

/-- C1 (amended): a pair probe whose quality coerces through `Decimal` is a
member exactly when some member has the probed mimetype and exactly that
coerced quality; the string `"0.8"` and the stored decimal `4/5` make
`("text/html", quality)` a member of the example collection and `"0.5"` does
not, but the Python float `0.8` does not either, because its exact decimal
coercion differs from `Decimal("0.8")`. -/
theorem C1_pair_membership :
    (∀ (h : HeaderAccept) (mt q : PyVal) (dq : ℚ), Dval q = .ok dq →
      h.contains (.tup [mt, q]) = .ok (h.items.any fun item =>
        pyValEqStr mt item.mimetype && decide (dq = item.quality)) ∧
      (h.contains (.tup [mt, q]) = .ok true ↔
        ∃ item ∈ h.items, pyValEqStr mt item.mimetype = true ∧ dq = item.quality)) ∧
    (do
      let m ← MediaRange.build "text/html" [("q", OptVal.str "0.8")]
      let a ← HeaderAccept.build [m]
      a.contains (.tup [.str "text/html", .str "0.8"])) = Except.ok true ∧
    (do
      let m ← MediaRange.build "text/html" [("q", OptVal.str "0.8")]
      let a ← HeaderAccept.build [m]
      a.contains (.tup [.str "text/html", .num (4 / 5)])) = Except.ok true ∧
    (do
      let m ← MediaRange.build "text/html" [("q", OptVal.str "0.8")]
      let a ← HeaderAccept.build [m]
      a.contains (.tup [.str "text/html", .str "0.5"])) = Except.ok false ∧
    (do
      let m ← MediaRange.build "text/html" [("q", OptVal.str "0.8")]
      let a ← HeaderAccept.build [m]
      a.contains (.tup [.str "text/html",
        .num (3602879701896397 / 4503599627370496)])) = Except.ok false := by
  refine ⟨?_, by with_unfolding_all decide, by with_unfolding_all decide,
    by with_unfolding_all decide, by with_unfolding_all decide⟩
  intro h mt q dq hq
  refine ⟨contains_pair_eq h mt q hq, ?_⟩
  rw [contains_pair_eq h mt q hq]
  simp only [Except.ok.injEq, List.any_eq_true, Bool.and_eq_true, decide_eq_true_eq]

/-- Witness for C1: the pair characterization applied to the concrete
collection holding `MediaRange("text/html", q="0.8")`. -/
theorem C1_pair_membership_witness :
    HeaderAccept.contains
        ⟨[⟨"text/html", 4 / 5, [("q", OptVal.str "0.8")], []⟩], 4 / 5⟩
        (.tup [.str "text/html", .str "0.8"]) =
      .ok (List.any ([⟨"text/html", 4 / 5, [("q", OptVal.str "0.8")], []⟩] : List MediaRange) fun item =>
          pyValEqStr (.str "text/html") item.mimetype && decide ((4 / 5 : ℚ) = item.quality)) :=
  (C1_pair_membership.1
    ⟨[⟨"text/html", 4 / 5, [("q", OptVal.str "0.8")], []⟩], 4 / 5⟩
    (.str "text/html") (.str "0.8") (4 / 5) (by with_unfolding_all decide)).1

/-- C8 counterexample: the claim asserts that a membership probe lacking the
three attributes that fails to destructure into a pair never raises; but a
plain non-iterable object (for example `object()` or an int) raises
`TypeError` from the unpacking statement, which the source only guards
against `ValueError`. -/
theorem C8_plain_counterexample :
    (do
      let m ← MediaRange.build "text/html" [("q", OptVal.str "0.8")]
      let a ← HeaderAccept.build [m]
      a.contains .plain) = Except.error Err.typeError := by
  with_unfolding_all decide

/-- C8 (amended): a probe without the three attributes that fails to unpack
as an iterable of length two (a string of length other than two, or a tuple
of length other than two) falls through to the bare comparison without
error: for strings membership holds exactly when some member mimetype equals
the string, for tuples the bare comparison is always false; but a
non-iterable probe raises `TypeError` from the unpacking statement. -/
theorem C8_fallthrough :
    (∀ (h : HeaderAccept) (s : String), s.data.length ≠ 2 →
      h.contains (.str s) = .ok (h.items.any fun item => s == item.mimetype) ∧
      (h.contains (.str s) = .ok true ↔ ∃ item ∈ h.items, item.mimetype = s)) ∧
    (∀ (h : HeaderAccept) (xs : List PyVal), xs.length ≠ 2 →
      h.contains (.tup xs) = .ok false) ∧
    (∀ h : HeaderAccept, h.contains .plain = .error .typeError) := by
  refine ⟨?_, fun h xs hlen => contains_tup_bare h xs hlen, fun h => rfl⟩
  intro h s hlen
  refine ⟨contains_str_bare h s hlen, ?_⟩
  rw [contains_str_bare h s hlen]
  simp only [Except.ok.injEq, List.any_eq_true, beq_iff_eq]
  constructor
  · rintro ⟨item, hmem, heq⟩
    exact ⟨item, hmem, heq.symm⟩
  · rintro ⟨item, hmem, heq⟩
    exact ⟨item, hmem, heq.symm⟩

/-- Witness for C8: the bare fallthrough applied to the string
`"text/html"` (length nine, so unpacking fails with a caught `ValueError`)
over a concrete collection. -/
theorem C8_fallthrough_witness :
    HeaderAccept.contains
        ⟨[⟨"text/html", 4 / 5, [("q", OptVal.str "0.8")], []⟩], 4 / 5⟩
        (.str "text/html") =
      .ok (List.any ([⟨"text/html", 4 / 5, [("q", OptVal.str "0.8")], []⟩] : List MediaRange) fun item =>
        "text/html" == item.mimetype) :=
  (C8_fallthrough.1
    ⟨[⟨"text/html", 4 / 5, [("q", OptVal.str "0.8")], []⟩], 4 / 5⟩
    "text/html" (by decide)).1

/-- C9 counterexample: the claim asserts the splitter only trims surrounding
whitespace and otherwise leaves token text unchanged; but the source removes
every space character, including interior ones (`"a b"` becomes `"ab"`), and
removes only the space character, leaving a tab in place. -/
theorem C9_trim_counterexample :
    split_accept_header "a b" = ["ab"] ∧ "ab" ≠ "a b" ∧
    split_accept_header "\ta" = ["\ta"] ∧ "\ta" ≠ "a" := by
  refine ⟨by decide, by decide, by decide, by decide⟩

/-- C9 (amended): `split_accept_header` removes every space character from
the whole input (other whitespace is untouched) and then splits on commas:
the empty input yields exactly one empty token, and for any nonempty list of
tokens free of commas and spaces, splitting their comma-join returns exactly
those tokens in order, without deduplication. -/
theorem C9_split_amended :
    split_accept_header "" = [""] ∧
    (∀ ts : List (List Char), ts ≠ [] → (∀ t ∈ ts, ',' ∉ t ∧ ' ' ∉ t) →
      split_accept_header (String.mk (joinCommas ts)) = ts.map String.mk) ∧
    split_accept_header "text/html, application/xml; q=0.8" =
      ["text/html", "application/xml;q=0.8"] ∧
    split_accept_header "a,b,a" = ["a", "b", "a"] := by
  refine ⟨by decide, ?_, by decide, by decide⟩
  intro ts hne hno
  rw [split_accept_header]
  have hdata : (String.mk (joinCommas ts)).data = joinCommas ts := rfl
  rw [hdata]
  have hfilter : (joinCommas ts).filter (fun c => decide (c ≠ ' ')) = joinCommas ts := by
    rw [List.filter_eq_self]
    intro a ha
    rw [decide_eq_true_eq]
    rcases mem_joinCommas ha with hcomma | ⟨t, ht, hat⟩
    · subst hcomma; decide
    · exact fun heq => (hno t ht).2 (heq ▸ hat)
  rw [hfilter, splitCommas_joinCommas hne (fun t ht => (hno t ht).1)]

/-- Witness for C9: the round trip applied to two concrete comma-free,
space-free tokens. -/
theorem C9_split_amended_witness :
    split_accept_header (String.mk (joinCommas [['a', 'b'], ['c']])) =
      [String.mk ['a', 'b'], String.mk ['c']] :=
  C9_split_amended.2.1 [['a', 'b'], ['c']] (by decide) (by decide)

/-- C2: for a collection built from a nonempty member list,
`is_html_accepted(strict)` holds exactly when some member carries one of the
compared mimetypes (the HTML mimetypes, extended with the wildcards when
`strict` is false) at exactly the collection `max_quality` and with an empty
options dict (the synthetic probes carry no options, so the full-capability
equality requires the member options to be empty too); in particular a
`text/html` member below `max_quality` never makes it true, with
`strict=true` wildcard members never make it true, and the wildcard example
collection at quality `0.8` is rejected strictly and accepted non-strictly. -/
theorem C2_is_html_accepted :
    (∀ (items : List MediaRange) (h : HeaderAccept), HeaderAccept.build items = .ok h →
      ∀ strict : Bool,
        (h.is_html_accepted strict = .ok true ↔
          ∃ m ∈ items, m.mimetype ∈ mimetypes_compare strict ∧
            m.quality = h.max_quality ∧ m.options = [])) ∧
    (do
      let t ← MediaRange.build "text/*" [("q", OptVal.str "0.8")]
      let ap ← MediaRange.build "application/*" [("q", OptVal.str "0.8")]
      let w ← MediaRange.build "*/*" [("q", OptVal.str "0.8")]
      let a ← HeaderAccept.build [t, ap, w]
      a.is_html_accepted true) = Except.ok false ∧
    (do
      let t ← MediaRange.build "text/*" [("q", OptVal.str "0.8")]
      let ap ← MediaRange.build "application/*" [("q", OptVal.str "0.8")]
      let w ← MediaRange.build "*/*" [("q", OptVal.str "0.8")]
      let a ← HeaderAccept.build [t, ap, w]
      a.is_html_accepted false) = Except.ok true ∧
    (do
      let hm ← MediaRange.build "text/html" [("q", OptVal.str "0.5")]
      let x ← MediaRange.build "application/xml" [("q", OptVal.str "0.8")]
      let a ← HeaderAccept.build [hm, x]
      a.is_html_accepted false) = Except.ok false := by
  refine ⟨?_, by with_unfolding_all decide, by with_unfolding_all decide,
    by with_unfolding_all decide⟩
  intro items h hb strict
  obtain ⟨hitems, -, -, -⟩ := headerAccept_build_ok hb
  rw [is_html_accepted_eq, hitems]
  simp only [Except.ok.injEq, List.any_eq_true, Bool.and_eq_true, beq_iff_eq,
    decide_eq_true_eq, dictEq_nil_iff]
  constructor
  · rintro ⟨mt, hmt, item, hitem, ⟨hmteq, hq⟩, hopt⟩
    exact ⟨item, hitem, hmteq ▸ hmt, hq.symm, hopt⟩
  · rintro ⟨m, hm, hmem, hq, hopt⟩
    exact ⟨m.mimetype, hmem, m, hm, ⟨rfl, hq.symm⟩, hopt⟩

/-- Witness for C2: the characterization applied to the singleton collection
holding `MediaRange("text/html", q="0.8")`, with `strict = true`. -/
theorem C2_is_html_accepted_witness :
    HeaderAccept.is_html_accepted
        ⟨[⟨"text/html", 4 / 5, [("q", OptVal.str "0.8")], []⟩], 4 / 5⟩ true = .ok true ↔
      ∃ m ∈ ([⟨"text/html", 4 / 5, [("q", OptVal.str "0.8")], []⟩] : List MediaRange),
        m.mimetype ∈ mimetypes_compare true ∧
          m.quality = (HeaderAccept.max_quality
            ⟨[⟨"text/html", 4 / 5, [("q", OptVal.str "0.8")], []⟩], 4 / 5⟩) ∧
          m.options = [] :=
  C2_is_html_accepted.1 [⟨"text/html", 4 / 5, [("q", OptVal.str "0.8")], []⟩]
    ⟨[⟨"text/html", 4 / 5, [("q", OptVal.str "0.8")], []⟩], 4 / 5⟩
    (by with_unfolding_all decide) true

/-- C3: for a collection built from a nonempty member list whose option
values are strings, `to_http` joins with commas the member serializations
taken in an order that is a permutation of the members, sorted by descending
quality, and stable: members sharing any fixed quality keep their original
relative order; the two-member example renders exactly as the spec states. -/
theorem C3_to_http_descending :
    (∀ (items : List MediaRange) (h : HeaderAccept),
      HeaderAccept.build items = .ok h →
      (∀ m ∈ items, ∀ kv ∈ m.options, ∃ s, kv.2 = OptVal.str s) →
      ∃ sorted strs,
        List.Perm sorted items ∧
        List.Sorted qge sorted ∧
        (∀ q : ℚ, sorted.filter (fun m => decide (m.quality = q)) =
          items.filter (fun m => decide (m.quality = q))) ∧
        sorted.mapM (fun value => value.to_http false) = .ok strs ∧
        h.to_http = .ok (String.intercalate "," strs)) ∧
    (do
      let hm ← MediaRange.build "text/html" [("q", OptVal.str "0.8")]
      let x ← MediaRange.build "application/xml" [("q", OptVal.str "0.5")]
      let a ← HeaderAccept.build [hm, x]
      a.to_http) = Except.ok "text/html;q=0.8,application/xml;q=0.5" := by
  refine ⟨?_, by with_unfolding_all decide⟩
  intro items h hb hstr
  obtain ⟨hitems, -, -, -⟩ := headerAccept_build_ok hb
  have hmemsort : ∀ m ∈ sortDesc items, m ∈ items := fun m hm =>
    (sortDesc_perm items).mem_iff.1 hm
  obtain ⟨strs, hstrs⟩ := mapM_ok_of_forall
    (l := sortDesc items) (f := fun value => value.to_http false)
    (fun m hm => ⟨_, MediaRange.to_http_ok (hstr m (hmemsort m hm)) false⟩)
  refine ⟨sortDesc items, strs, sortDesc_perm items, sortDesc_sorted items,
    fun q => sortDesc_filter q items, hstrs, ?_⟩
  rw [HeaderAccept.to_http, hitems, hstrs, okBind]

/-- Witness for C3: the serialization contract applied to the singleton
collection holding `MediaRange("text/html", q="0.8")`. -/
theorem C3_to_http_descending_witness :
    ∃ sorted strs,
      List.Perm sorted ([⟨"text/html", 4 / 5, [("q", OptVal.str "0.8")], []⟩] : List MediaRange) ∧
      List.Sorted qge sorted ∧
      (∀ q : ℚ, sorted.filter (fun m => decide (m.quality = q)) =
        ([⟨"text/html", 4 / 5, [("q", OptVal.str "0.8")], []⟩] : List MediaRange).filter
          (fun m => decide (m.quality = q))) ∧
      sorted.mapM (fun value => value.to_http false) = .ok strs ∧
      HeaderAccept.to_http ⟨[⟨"text/html", 4 / 5, [("q", OptVal.str "0.8")], []⟩], 4 / 5⟩ =
        .ok (String.intercalate "," strs) :=
  C3_to_http_descending.1 [⟨"text/html", 4 / 5, [("q", OptVal.str "0.8")], []⟩]
    ⟨[⟨"text/html", 4 / 5, [("q", OptVal.str "0.8")], []⟩], 4 / 5⟩
    (by with_unfolding_all decide) (by simp)

/-- C5: for a constructed `MediaRange` whose option values are strings,
`to_http(explicit_quality)` renders the mimetype, then the `q` parameter
first exactly when explicit quality is requested or the construction options
held a `q` key, then the remaining options sorted by key; the rendered
quality always has exactly one digit after the decimal point; the docstring
examples render as stated. -/
theorem C5_to_http_rendering :
    (∀ (mt : String) (opts : OptDict) (m : MediaRange) (e : Bool),
      MediaRange.build mt opts = .ok m →
      (∀ kv ∈ m.options, ∃ s, kv.2 = OptVal.str s) →
      m.to_http e = .ok (String.intercalate ";" ([mt] ++
        (if e || (dlookup "q" opts).isSome then ["q=" ++ formatQ1 m.quality] else []) ++
        (sortedOptions m.options).map (fun kv => kv.1 ++ "=" ++ strOrEmpty kv.2)) ) ∧
      List.Sorted keyLe (sortedOptions m.options)) ∧
    (∀ q : ℚ, ∃ a b : ℕ, b < 10 ∧ formatQ1 q = natRepr a ++ "." ++ natRepr b) ∧
    (do
      let m ← MediaRange.build "text/html" [("q", OptVal.num 1)]
      m.to_http false) = Except.ok "text/html;q=1.0" ∧
    (do
      let m ← MediaRange.build "text/html" []
      m.to_http false) = Except.ok "text/html" ∧
    (do
      let m ← MediaRange.build "text/html" []
      m.to_http true) = Except.ok "text/html;q=1.0" ∧
    (do
      let m ← MediaRange.build "text/plain" [("version", OptVal.str "1.0"), ("level", OptVal.str "1")]
      m.to_http true) = Except.ok "text/plain;q=1.0;level=1;version=1.0" := by
  refine ⟨?_, ?_, by with_unfolding_all decide, by with_unfolding_all decide,
    by with_unfolding_all decide, by with_unfolding_all decide⟩
  · intro mt opts m e hb hstr
    obtain ⟨hmt, hraw, -⟩ := mediaRange_build_ok hb
    refine ⟨?_, List.sorted_insertionSort keyLe m.options⟩
    rw [MediaRange.to_http_ok hstr e, hmt, hraw]
  · intro q
    refine ⟨(round (10 * q) / 10).toNat, (round (10 * q) % 10).toNat, ?_, rfl⟩
    have h1 : 0 ≤ round (10 * q) % 10 := Int.emod_nonneg _ (by norm_num)
    have h2 : round (10 * q) % 10 < 10 := Int.emod_lt_of_pos _ (by norm_num)
    omega

/-- Witness for C5: the rendering contract applied to
`MediaRange("text/html", q=Decimal(1))` with implicit quality mode. -/
theorem C5_to_http_rendering_witness :
    MediaRange.to_http ⟨"text/html", 1, [("q", OptVal.num 1)], []⟩ false =
      .ok (String.intercalate ";" (["text/html"] ++
        (if false || (dlookup "q" [("q", OptVal.num 1)]).isSome
          then ["q=" ++ formatQ1 (MediaRange.quality ⟨"text/html", 1, [("q", OptVal.num 1)], []⟩)]
          else []) ++
        (sortedOptions (MediaRange.options ⟨"text/html", 1, [("q", OptVal.num 1)], []⟩)).map
          (fun kv => kv.1 ++ "=" ++ strOrEmpty kv.2))) :=
  (C5_to_http_rendering.1 "text/html" [("q", OptVal.num 1)]
    ⟨"text/html", 1, [("q", OptVal.num 1)], []⟩ false
    (by with_unfolding_all decide) (by simp)).1

/-- C10: for a collection built from a nonempty member list,
`get_max_quality_accept` succeeds (the construction of the result never sees
an empty input, because the maximum quality is attained), every member of
the result has quality equal to the original `max_quality`, and the result
collection has the same `max_quality`. -/
theorem C10_get_max_quality_accept :
    ∀ (items : List MediaRange) (h : HeaderAccept),
      HeaderAccept.build items = .ok h →
      ∃ h2 : HeaderAccept, h.get_max_quality_accept = .ok h2 ∧
        h2.items ≠ [] ∧
        (∀ m ∈ h2.items, m.quality = h.max_quality) ∧
        h2.max_quality = h.max_quality := by
  intro items h hb
  obtain ⟨hitems, -, ⟨m0, hm0mem, hm0q⟩, -⟩ := headerAccept_build_ok hb
  have hm0fl : m0 ∈ h.items.filter (fun item => decide (item.quality = h.max_quality)) :=
    List.mem_filter.2 ⟨hitems ▸ hm0mem, by simp [hm0q]⟩
  have hallq : ∀ m ∈ h.items.filter (fun item => decide (item.quality = h.max_quality)),
      m.quality = h.max_quality := fun m hm => by
    have := (List.mem_filter.1 hm).2
    simpa using this
  cases hflc : h.items.filter (fun item => decide (item.quality = h.max_quality)) with
  | nil => rw [hflc] at hm0fl; simp at hm0fl
  | cons f0 frest =>
    refine ⟨⟨f0 :: frest, frest.foldl (fun a it => max a it.quality) f0.quality⟩,
      ?_, by simp, ?_, ?_⟩
    · rw [HeaderAccept.get_max_quality_accept, hflc]
      rfl
    · intro m hm
      exact hallq m (hflc ▸ hm)
    · show frest.foldl (fun a it => max a it.quality) f0.quality = h.max_quality
      have hf0 : f0.quality = h.max_quality := hallq f0 (hflc ▸ List.mem_cons_self _ _)
      have hrest : ∀ m ∈ frest, m.quality = h.max_quality := fun m hm =>
        hallq m (hflc ▸ List.mem_cons_of_mem _ hm)
      rw [hf0, foldl_max_const frest _ hrest]

/-- Witness for C10: the maximal-quality restriction applied to a concrete
two-member collection with distinct qualities. -/
theorem C10_get_max_quality_accept_witness :
    ∃ h2 : HeaderAccept,
      HeaderAccept.get_max_quality_accept
          ⟨[⟨"text/html", 4 / 5, [("q", OptVal.str "0.8")], []⟩,
            ⟨"application/xml", 1 / 2, [("q", OptVal.str "0.5")], []⟩], 4 / 5⟩ = .ok h2 ∧
        h2.items ≠ [] ∧
        (∀ m ∈ h2.items, m.quality = HeaderAccept.max_quality
          ⟨[⟨"text/html", 4 / 5, [("q", OptVal.str "0.8")], []⟩,
            ⟨"application/xml", 1 / 2, [("q", OptVal.str "0.5")], []⟩], 4 / 5⟩) ∧
        h2.max_quality = HeaderAccept.max_quality
          ⟨[⟨"text/html", 4 / 5, [("q", OptVal.str "0.8")], []⟩,
            ⟨"application/xml", 1 / 2, [("q", OptVal.str "0.5")], []⟩], 4 / 5⟩ :=
  C10_get_max_quality_accept
    [⟨"text/html", 4 / 5, [("q", OptVal.str "0.8")], []⟩,
      ⟨"application/xml", 1 / 2, [("q", OptVal.str "0.5")], []⟩]
    ⟨[⟨"text/html", 4 / 5, [("q", OptVal.str "0.8")], []⟩,
      ⟨"application/xml", 1 / 2, [("q", OptVal.str "0.5")], []⟩], 4 / 5⟩
    (by with_unfolding_all decide)
